import Mathlib

/-!
Verification of the SQLite storage implementation for Tessera
(`storage/sqlite/sqlite.go`).

The Go code is shallowly embedded: the four SQL tables become fields of a
`DB` structure (association lists keyed like the SQL primary keys), the
`Storage` struct keeps the database plus the in-memory cached tree state
`s.state`, and each Go function that the claims mention becomes an
executable Lean function.  Machine integers are modelled as `Nat`/`Int`:
all quantities involved (`size` columns, tile indices, entry counts) stay
far below their Go bounds (`uint32`/`uint64`), and `published_at` /
durations are `Int` (Unix milliseconds resp. nanoseconds).

Transactions: the Go code issues `tx.Exec` writes during `integrate` and
either commits or rolls the transaction back in `sequenceBatch`.  The
embedding makes this explicit: `integrate` returns the list of buffered
writes (entry-bundle writes, tile writes, the new tree state) or an error;
`sequenceBatch` applies them all on success and discards them on error,
which is exactly the commit/rollback behaviour.  Fallible backend
operations are modelled with an explicit fault oracle (`Faults`) so that
the error paths are reachable.
-/

namespace TesseraSqlite

/-- Raw bytes, as a list of byte values. -/
abbrev Bytes := List Nat

/-- `layout.TileWidth` (external constant of the tessera `api/layout` package). -/
def TileWidth : Nat := 256

/-- `layout.EntryBundleWidth` (external constant of the tessera `api/layout` package). -/
def EntryBundleWidth : Nat := 256

/-- `sha256.Size`: byte length of a SHA-256 digest. -/
def sha256Size : Nat := 32

/-- `rfc6962.DefaultHasher.EmptyRoot()`: the RFC 6962 empty-tree root `H()`,
i.e. the SHA-256 digest of the empty string (a fixed 32-byte constant). -/
def emptyRoot : Bytes :=
  [0xe3, 0xb0, 0xc4, 0x42, 0x98, 0xfc, 0x1c, 0x14,
   0x9a, 0xfb, 0xf4, 0xc8, 0x99, 0x6f, 0xb9, 0x24,
   0x27, 0xae, 0x41, 0xe4, 0x64, 0x9b, 0x93, 0x4c,
   0xa4, 0x95, 0x99, 0x1b, 0x78, 0x52, 0xb8, 0x55]

/-- A row of the `TiledLeaves` table: `(size, data)`, keyed by `tile_index`. -/
structure TiledLeavesRow where
  size : Nat
  data : Bytes
deriving DecidableEq, Repr

/-- A row of the `TreeState` table: `(size, root)` (singleton row, id = 0). -/
structure TreeStateRow where
  size : Nat
  root : Bytes
deriving DecidableEq, Repr

/-- A row of the `Checkpoint` table (singleton row, id = 0).  The Go row stores
only `(note, published_at)`; the note is the opaque signed blob produced by
`s.newCheckpoint(size, root)` (an `options.NewCPFunc`, external to this file's
source).  Because that serialisation is opaque, the model records alongside the
note the `(size, root)` pair the note was produced from, which is what "the
size committed to by the published checkpoint" denotes. -/
structure CheckpointRow where
  note : Bytes
  size : Nat
  root : Bytes
  publishedAt : Int
deriving DecidableEq, Repr

/-- The four-table SQLite database.  `subtree` is keyed by `(level, index)`
(table `Subtree`), `tiledLeaves` by `tile_index` (table `TiledLeaves`). -/
structure DB where
  checkpoint : Option CheckpointRow
  treeState : Option TreeStateRow
  subtree : List ((Nat × Nat) × Bytes)
  tiledLeaves : List (Nat × TiledLeavesRow)
deriving DecidableEq, Repr

/-- The Go `Storage` struct: the database handle plus the in-memory cached
tree state `s.state` (a `treeStateStr`), which is what `readTreeState`
returns. -/
structure Storage where
  db : DB
  state : TreeStateRow
deriving DecidableEq, Repr

/-- `SELECT size, data FROM TiledLeaves WHERE tile_index = ?` -/
def lookupTiledLeaves : List (Nat × TiledLeavesRow) → Nat → Option TiledLeavesRow
  | [], _ => none
  | (k, r) :: rest, i => if k = i then some r else lookupTiledLeaves rest i

/-- `SELECT nodes FROM Subtree WHERE level = ? AND index = ?` -/
def lookupSubtree : List ((Nat × Nat) × Bytes) → Nat → Nat → Option Bytes
  | [], _, _ => none
  | ((l, i), nodes) :: rest, level, index =>
      if l = level ∧ i = index then some nodes
      else lookupSubtree rest level index

/-- `REPLACE INTO TiledLeaves (tile_index, size, data) VALUES (?, ?, ?)`:
upsert keyed on `tile_index`. -/
def replaceTiledLeaves (t : List (Nat × TiledLeavesRow)) (i : Nat)
    (row : TiledLeavesRow) : List (Nat × TiledLeavesRow) :=
  (i, row) :: t.filter (fun p => p.1 ≠ i)

/-- `REPLACE INTO Subtree (level, index, nodes) VALUES (?, ?, ?)`:
upsert keyed on `(level, index)`. -/
def replaceSubtree (t : List ((Nat × Nat) × Bytes)) (k : Nat × Nat)
    (nodes : Bytes) : List ((Nat × Nat) × Bytes) :=
  (k, nodes) :: t.filter (fun p => p.1 ≠ k)

/-- Error values surfaced by the read paths; `notFound` is `os.ErrNotExist`. -/
inductive ReadErr where
  | notFound
deriving DecidableEq, Repr

/-- `ReadTile(ctx, level, index, p)`: look the tile up in `Subtree`; compute
`numEntries = len(tile) / sha256.Size`; a partial parameter `p = 0` requests
`layout.TileWidth` entries; if more entries are requested than stored, return
`os.ErrNotExist`, otherwise return the stored bytes untrimmed.
(The Go parameter `p` is a `uint8`, so `p < 256`.) -/
def ReadTile (db : DB) (level index p : Nat) : Except ReadErr Bytes :=
  match lookupSubtree db.subtree level index with
  | none => .error .notFound
  | some tile =>
    let numEntries := tile.length / sha256Size
    let requestedEntries := if p = 0 then TileWidth else p
    if numEntries < requestedEntries then .error .notFound
    else .ok tile

/-- `ReadEntryBundle(ctx, index, p)`: look the bundle up in `TiledLeaves`;
a partial parameter `p = 0` requests `layout.EntryBundleWidth` entries; if
the requested size exceeds the stored `size` column, return an error wrapping
`os.ErrNotExist`, otherwise return the stored bytes untrimmed.
(The Go parameter `p` is a `uint8`, so `p < 256`.) -/
def ReadEntryBundle (db : DB) (index p : Nat) : Except ReadErr Bytes :=
  match lookupTiledLeaves db.tiledLeaves index with
  | none => .error .notFound
  | some row =>
    let requestedSize := if p = 0 then EntryBundleWidth else p
    if row.size < requestedSize then .error .notFound
    else .ok row.data

/-- `options.NewCPFunc`: the configured checkpoint signer; external code, kept
abstract as a (fallible, as in Go) function from `(size, root)` to note bytes. -/
abbrev NewCPFunc := Nat → Bytes → Except Unit Bytes

/-- The local variable `at` of `publishCheckpoint`: the stored checkpoint's
`published_at`, left at its zero value `0` when no row exists
(`sql.ErrNoRows` is ignored by the Go code). -/
def cpPublishedAt (db : DB) : Int :=
  match db.checkpoint with
  | some cp => cp.publishedAt
  | none => 0

/-- `publishCheckpoint(ctx, interval)`.  Times: `published_at` is in Unix
milliseconds (`time.UnixMilli` / `UnixMilli()`), `interval` in nanoseconds
(`time.Duration`); the Go guard `time.Since(time.UnixMilli(at)) < interval`
is `(nowMs - at) * 1000000 < intervalNs`.  If the guard holds the function
returns `nil` without writing.  Otherwise it reads the tree state via
`readTreeState` (which returns the cached `s.state`), signs it with
`s.newCheckpoint`, and REPLACEs the Checkpoint row with `published_at = now`.
A signing error is returned before any write. -/
def publishCheckpoint (newCP : NewCPFunc) (intervalNs : Int) (nowMs : Int)
    (st : Storage) : Except Unit Unit × Storage :=
  let atMs := cpPublishedAt st.db
  if (nowMs - atMs) * 1000000 < intervalNs then (.ok (), st)
  else
    match newCP st.state.size st.state.root with
    | .error e => (.error e, st)
    | .ok note =>
      (.ok (), { st with db := { st.db with
          checkpoint := some ⟨note, st.state.size, st.state.root, nowMs⟩ } })

/-- `maybeInitTree`: load the TreeState row inside a transaction; if no row
exists, write `(0, rfc6962.DefaultHasher.EmptyRoot())` (via `writeTreeState`,
which also updates the cached `s.state`) and commit; if a row exists,
`loadTreeState` caches it in `s.state` and the transaction is rolled back
without having written anything. -/
def maybeInitTree (st : Storage) : Storage :=
  match st.db.treeState with
  | some r => { st with state := r }
  | none =>
    { db := { st.db with treeState := some ⟨0, emptyRoot⟩ },
      state := ⟨0, emptyRoot⟩ }

/-- Errors returned by `New`. -/
inductive NewErr where
  | intervalTooLow
  | noSigner
deriving DecidableEq, Repr

/-- `minCheckpointInterval = time.Second`, in nanoseconds. -/
def minCheckpointIntervalNs : Int := 1000000000

/-- `New(ctx, db, opts...)`: reject a `CheckpointInterval` below
`minCheckpointInterval`; reject a missing `tessera.WithCheckpointSigner`
(`opt.NewCP == nil`); otherwise build the `Storage` (cached state starts at
the `treeStateStr` zero value) and run `maybeInitTree`. -/
def new (intervalNs : Int) (newCP : Option NewCPFunc) (db : DB) :
    Except NewErr Storage :=
  if intervalNs < minCheckpointIntervalNs then .error .intervalTooLow
  else
    match newCP with
    | none => .error .noSigner
    | some _ => .ok (maybeInitTree ⟨db, ⟨0, []⟩⟩)

/-- A `tessera.Entry` (external type): the storage code uses only its
`MarshalBundleData(index)` serialisation — which depends on the assigned
log position — and its `LeafHash()`. -/
structure Entry where
  bundleData : Nat → Bytes
  leafHash : Bytes

/-- `storage.SequencedEntry`: bundle bytes plus leaf hash. -/
structure SequencedEntry where
  bundleData : Bytes
  leafHash : Bytes
deriving DecidableEq, Repr

/-- The provisional-sequence-number loop of `integrate`:
`sequencedEntries[i] = {MarshalBundleData(fromSeq + i), LeafHash()}`. -/
def sequencedEntries (fromSeq : Nat) : List Entry → List SequencedEntry
  | [] => []
  | e :: es => ⟨e.bundleData fromSeq, e.leafHash⟩ :: sequencedEntries (fromSeq + 1) es

/-- One `writeEntryBundle(tx, index, size, data)` call:
`REPLACE INTO TiledLeaves`. -/
structure BundleWrite where
  index : Nat
  size : Nat
  data : Bytes
deriving DecidableEq, Repr

/-- Errors surfaced by `integrate`, one per fallible operation. -/
inductive IntErr where
  | queryPartial
  | scanPartial
  | sizeMismatch (expected found : Nat)
  | writeBundle
  | integrateTiles
  | writeTile
  | writeTreeState
deriving DecidableEq, Repr

/-- Fault oracle for the backend operations issued by `integrate`: in Go
every `tx.Query`/`tx.Exec` can fail for environmental reasons; the oracle
decides which of them do, making the error paths of the code reachable. -/
structure Faults where
  readPartial : Bool
  writeBundle : Nat → Bool
  integrateTiles : Bool
  writeTile : Nat × Nat → Bool
  writeTreeState : Bool

/-- The fault-free oracle. -/
def noFaults : Faults :=
  ⟨false, fun _ => false, false, fun _ => false, false⟩

/-- The per-entry loop of `integrate` over `sequencedEntries`: append each
entry's bundle bytes to `bundleWriter`, increment `entriesInBundle`; when a
bundle reaches `layout.EntryBundleWidth` entries, write it out
(`writeEntryBundle`, which the oracle `wf` may fail), advance `bundleIndex`
and reset the buffer.  Returns the issued writes together with the final
`(bundleIndex, entriesInBundle, bundleWriter)` state. -/
def bundleLoop (wf : Nat → Bool) :
    List SequencedEntry → Nat → Nat → Bytes →
    Except IntErr (List BundleWrite × Nat × Nat × Bytes)
  | [], bi, eib, buf => .ok ([], bi, eib, buf)
  | e :: es, bi, eib, buf =>
    let buf' := buf ++ e.bundleData
    let eib' := eib + 1
    if eib' = EntryBundleWidth then
      if wf bi then .error .writeBundle
      else
        match bundleLoop wf es (bi + 1) 0 [] with
        | .error err => .error err
        | .ok (ws, bi'', eib'', buf'') => .ok (⟨bi, eib', buf'⟩ :: ws, bi'', eib'', buf'')
    else bundleLoop wf es bi eib' buf'

/-- Step 3 of `integrate`: when the tree size is not a bundle boundary
(`0 < entriesInBundle`), read the stored partial bundle at `bundleIndex`
(the query may fail; a missing row fails `row.Scan`; a stored `size`
different from `entriesInBundle` is the corrupted-prefix error) and seed
`bundleWriter` with its bytes; otherwise start with an empty buffer. -/
def readPartialBundle (f : Faults) (t : List (Nat × TiledLeavesRow))
    (bundleIndex entriesInBundle : Nat) : Except IntErr Bytes :=
  if 0 < entriesInBundle then
    if f.readPartial then .error .queryPartial
    else
      match lookupTiledLeaves t bundleIndex with
      | none => .error .scanPartial
      | some row =>
        if row.size ≠ entriesInBundle then
          .error (.sizeMismatch entriesInBundle row.size)
        else .ok row.data
  else .ok []

/-- The trailing-partial-bundle write after the per-entry loop: if entries
remain buffered, write them out as a partial bundle. -/
def finishBundles (f : Faults) (ws : List BundleWrite) (bi eib : Nat)
    (buf : Bytes) : Except IntErr (List BundleWrite) :=
  if 0 < eib then
    if f.writeBundle bi then .error .writeBundle
    else .ok (ws ++ [⟨bi, eib, buf⟩])
  else .ok ws

/-- `integrate(ctx, tx, fromSeq, entries)`.  Control flow of the Go code:

1. build `sequencedEntries` (indices `fromSeq + i`);
2. `bundleIndex, entriesInBundle := fromSeq / 256, fromSeq % 256`;
3. read the stored partial bundle if any (`readPartialBundle`);
4. run the per-entry loop (`bundleLoop`), then write the trailing partial
   bundle if any (`finishBundles`);
5. `storage.Integrate` computes the new root and the modified hash tiles —
   that function lives in `storage/internal`, outside this file's source, so
   it is modelled from the spec: it returns the new size `fromSeq + n`, a new
   root, and a set of modified tiles, here abstracted as the parameters
   `mRoot` and `mTiles` ("emit the set of modified tiles ... and the new size
   s+n and root");
6. `writeTile` each modified tile, then `writeTreeState(newSize, newRoot)`.

All writes are buffered in the transaction and returned; the new cached
tree state (the `s.state` assignment inside `writeTreeState`, which in Go
happens only after its `Exec` succeeds, i.e. after every fallible step) is
returned as the third component. -/
def integrate (f : Faults) (mRoot : Bytes) (mTiles : List ((Nat × Nat) × Bytes))
    (t : List (Nat × TiledLeavesRow)) (fromSeq : Nat) (entries : List Entry) :
    Except IntErr (List BundleWrite × List ((Nat × Nat) × Bytes) × TreeStateRow) :=
  (readPartialBundle f t (fromSeq / EntryBundleWidth) (fromSeq % EntryBundleWidth)).bind
    fun buf =>
  (bundleLoop f.writeBundle (sequencedEntries fromSeq entries)
      (fromSeq / EntryBundleWidth) (fromSeq % EntryBundleWidth) buf).bind
    fun r =>
  (finishBundles f r.1 r.2.1 r.2.2.1 r.2.2.2).bind
    fun W =>
  if f.integrateTiles then .error .integrateTiles
  else if mTiles.any (fun tw => f.writeTile tw.1) then .error .writeTile
  else if f.writeTreeState then .error .writeTreeState
  else .ok (W, mTiles, ⟨fromSeq + entries.length, mRoot⟩)

/-- `Except.bind` on a success. -/
@[simp] lemma except_bind_ok {α β γ : Type} (a : α) (g : α → Except γ β) :
    (Except.ok a).bind g = g a := rfl

/-- `Except.bind` on an error. -/
@[simp] lemma except_bind_error {α β γ : Type} (e : γ) (g : α → Except γ β) :
    (Except.error e : Except γ α).bind g = .error e := rfl

@[simp] lemma noFaults_readPartial : noFaults.readPartial = false := rfl

@[simp] lemma noFaults_writeBundle : noFaults.writeBundle = fun _ => false := rfl

@[simp] lemma noFaults_integrateTiles : noFaults.integrateTiles = false := rfl

@[simp] lemma noFaults_writeTile : noFaults.writeTile = fun _ => false := rfl

@[simp] lemma noFaults_writeTreeState : noFaults.writeTreeState = false := rfl

/-- Apply the buffered `writeEntryBundle` calls (tx commit). -/
def applyBundleWrites (t : List (Nat × TiledLeavesRow)) (W : List BundleWrite) :
    List (Nat × TiledLeavesRow) :=
  W.foldl (fun acc w => replaceTiledLeaves acc w.index ⟨w.size, w.data⟩) t

/-- Apply the buffered `writeTile` calls (tx commit). -/
def applySubtreeWrites (t : List ((Nat × Nat) × Bytes))
    (tws : List ((Nat × Nat) × Bytes)) : List ((Nat × Nat) × Bytes) :=
  tws.foldl (fun acc tw => replaceSubtree acc tw.1 tw.2) t

/-- `sequenceBatch(ctx, entries)`: return immediately on an empty batch;
otherwise read the tree size from the cached state (`readTreeState` returns
`s.state`), run `integrate` inside a transaction, and commit on success —
on any error the deferred `tx.Rollback` discards every buffered write and
the storage (database and cached state) is left untouched. -/
def sequenceBatch (f : Faults) (mRoot : Bytes) (mTiles : List ((Nat × Nat) × Bytes))
    (st : Storage) (entries : List Entry) : Except IntErr Unit × Storage :=
  if entries.length = 0 then (.ok (), st)
  else
    match integrate f mRoot mTiles st.db.tiledLeaves st.state.size entries with
    | .error e => (.error e, st)
    | .ok (W, tws, ts) =>
      (.ok (),
        { db := { st.db with
            tiledLeaves := applyBundleWrites st.db.tiledLeaves W,
            subtree := applySubtreeWrites st.db.subtree tws,
            treeState := some ts },
          state := ts })

/-- An event of the storage's write path: a batch handed to `sequenceBatch`
by the queue, or a tick/signal waking `publishCheckpoint` at time `nowMs`. -/
inductive Event where
  | batch (f : Faults) (mRoot : Bytes) (mTiles : List ((Nat × Nat) × Bytes))
      (entries : List Entry)
  | publish (nowMs : Int)

/-- One step of the write path. -/
def step (newCP : NewCPFunc) (intervalNs : Int) (st : Storage) : Event → Storage
  | .batch f mRoot mTiles entries => (sequenceBatch f mRoot mTiles st entries).2
  | .publish nowMs => (publishCheckpoint newCP intervalNs nowMs st).2

/-- Run a sequence of write-path events. -/
def run (newCP : NewCPFunc) (intervalNs : Int) : Storage → List Event → Storage
  | st, [] => st
  | st, e :: evs => run newCP intervalNs (step newCP intervalNs st e) evs

/-- Invariant: the size committed to by the published Checkpoint row is at
most the current integrated tree size (the cached state `readTreeState`
returns). -/
def cpSizeOK (st : Storage) : Bool :=
  match st.db.checkpoint with
  | some cp => decide (cp.size ≤ st.state.size)
  | none => true

/-- The stored partial bundle is consistent with the tree size `s`: either
`s` is a bundle boundary, or the row at `tile_index = s / 256` exists with
`size = s % 256`. -/
def partialBundleOk (t : List (Nat × TiledLeavesRow)) (s : Nat) : Bool :=
  s % 256 = 0 ||
    match lookupTiledLeaves t (s / 256) with
    | some row => row.size = s % 256
    | none => false

/-- `(s + 255) / 256`: the number of (full or partial) entry bundles of a
tree of size `s`. -/
def numBundles (s : Nat) : Nat := (s + 255) / 256

/-- The `TiledLeaves` table is consistent with tree size `s` at and above
the write frontier: every row has `tile_index < numBundles s` (no rows past
the end of the log), and when `s % 256 ≠ 0` the partial row at `s / 256`
exists with `size = s % 256`. -/
def tiledLeavesConsistent (t : List (Nat × TiledLeavesRow)) (s : Nat) : Bool :=
  t.all (fun p => p.1 < numBundles s) &&
    (if s % 256 = 0 then true
     else
       match lookupTiledLeaves t (s / 256) with
       | some row => row.size = s % 256
       | none => false)

/-- Concatenation of the bundle bytes of a list of sequenced entries. -/
def bytesOf : List SequencedEntry → Bytes
  | [] => []
  | e :: es => e.bundleData ++ bytesOf es

/-- Concatenation of the data of a list of bundle writes. -/
def writtenBytes : List BundleWrite → Bytes
  | [] => []
  | w :: ws => w.data ++ writtenBytes ws

/-- Characterisation of the fault-free per-entry loop of `integrate`,
started at bundle `bi` with `eib < 256` entries already buffered in `buf`:
it succeeds; it performs one full-bundle write per 256 entries reached, at
consecutive bundle indices starting at `bi`, each with `size = 256`; the
final state holds the remaining `(eib + n) % 256` entries; bytes flow from
the buffer and the entries into the writes and the final buffer in order;
and the first write (if any) extends the initial buffer. -/
lemma bundleLoop_spec (es : List SequencedEntry) :
    ∀ (bi eib : Nat) (buf : Bytes), eib < 256 →
    ∃ ws buf',
      bundleLoop (fun _ => false) es bi eib buf =
        .ok (ws, bi + (eib + es.length) / 256, (eib + es.length) % 256, buf') ∧
      ws.map BundleWrite.index = List.range' bi ((eib + es.length) / 256) ∧
      (∀ w ∈ ws, w.size = 256) ∧
      buf ++ bytesOf es = writtenBytes ws ++ buf' ∧
      (ws = [] → buf' = buf ++ bytesOf es) ∧
      (∀ w, ws.head? = some w → buf <+: w.data) := by
  induction es with
  | nil =>
    intro bi eib buf h
    refine ⟨[], buf, ?_, ?_, by simp, ?_, fun _ => by simp [bytesOf], ?_⟩
    · simp only [bundleLoop, List.length_nil]
      rw [show (eib + 0) / 256 = 0 from by omega,
        show (eib + 0) % 256 = eib from by omega]
      simp
    · rw [show (eib + List.length ([] : List SequencedEntry)) / 256 = 0 from by
        simp; omega]
      simp
    · simp [bytesOf, writtenBytes]
    · intro w hw; simp at hw
  | cons e rest ih =>
    intro bi eib buf h
    by_cases hfull : eib + 1 = 256
    · obtain ⟨ws1, buf1, heq, hidx, hsz, hcat, hnil, hhd⟩ :=
        ih (bi + 1) 0 [] (by omega)
      refine ⟨⟨bi, eib + 1, buf ++ e.bundleData⟩ :: ws1, buf1, ?_, ?_, ?_, ?_, ?_, ?_⟩
      · simp only [bundleLoop, EntryBundleWidth, if_pos hfull, Bool.false_eq_true,
          if_false, heq, List.length_cons]
        rw [show eib + (rest.length + 1) = 256 + rest.length from by omega,
          show bi + (256 + rest.length) / 256 = (bi + 1) + (0 + rest.length) / 256
            from by omega,
          show (256 + rest.length) % 256 = (0 + rest.length) % 256 from by omega]
      · simp only [List.map_cons, List.length_cons]
        rw [show eib + (rest.length + 1) = 256 + rest.length from by omega,
          show (256 + rest.length) / 256 = (0 + rest.length) / 256 + 1 from by omega,
          List.range'_succ]
        rw [hidx]
      · intro w hw
        rcases List.mem_cons.mp hw with hw | hw
        · rw [hw]; exact hfull
        · exact hsz w hw
      · simp only [bytesOf, writtenBytes]
        rw [List.nil_append] at hcat
        rw [← List.append_assoc, List.append_assoc (buf ++ e.bundleData), ← hcat,
          List.append_assoc]
      · intro hcon; cases hcon
      · intro w hw
        simp only [List.head?_cons, Option.some.injEq] at hw
        rw [← hw]
        exact List.prefix_append buf e.bundleData
    · have hlt : eib + 1 < 256 := by omega
      obtain ⟨ws1, buf1, heq, hidx, hsz, hcat, hnil, hhd⟩ :=
        ih bi (eib + 1) (buf ++ e.bundleData) hlt
      refine ⟨ws1, buf1, ?_, ?_, hsz, ?_, ?_, ?_⟩
      · simp only [bundleLoop, EntryBundleWidth, if_neg hfull, List.length_cons]
        rw [show eib + (rest.length + 1) = (eib + 1) + rest.length from by omega]
        exact heq
      · simp only [List.length_cons]
        rw [show eib + (rest.length + 1) = (eib + 1) + rest.length from by omega]
        exact hidx
      · simp only [bytesOf]
        rw [← List.append_assoc]
        exact hcat
      · intro hws
        rw [hnil hws]
        simp [bytesOf]
      · intro w hw
        exact (List.prefix_append buf e.bundleData).trans (hhd w hw)

/-- `sequencedEntries` preserves length. -/
lemma sequencedEntries_length (fromSeq : Nat) (es : List Entry) :
    (sequencedEntries fromSeq es).length = es.length := by
  induction es generalizing fromSeq with
  | nil => rfl
  | cons e rest ih => simp [sequencedEntries, ih]

/-- Entry `i` of a batch sequenced at `fromSeq` is serialised with log
position `fromSeq + i`. -/
lemma sequencedEntries_getElem (es : List Entry) :
    ∀ (fromSeq i : Nat),
      (sequencedEntries fromSeq es)[i]? =
        es[i]?.map (fun e => ⟨e.bundleData (fromSeq + i), e.leafHash⟩) := by
  induction es with
  | nil => intro fromSeq i; rfl
  | cons e rest ih =>
    intro fromSeq i
    cases i with
    | zero => simp [sequencedEntries]
    | succ j =>
      have harith : fromSeq + (j + 1) = (fromSeq + 1) + j := by omega
      simp only [sequencedEntries, List.getElem?_cons_succ, harith]
      exact ih (fromSeq + 1) j

/-- `List.range'` with one element appended on the right. -/
lemma range'_snoc (a k : Nat) :
    List.range' a k ++ [a + k] = List.range' a (k + 1) := by
  simp [List.range'_concat]

/-- Characterisation of a fault-free `integrate` at tree size `s` when the
stored partial bundle (if `s` is not a bundle boundary) is consistent:
it succeeds, returning the new tree state `(s + n, mRoot)` and a write list
`W` whose indices are consecutive from `⌊s/256⌋`, with
`(s%256 + n)/256` full bundles of size 256 followed by a trailing partial
bundle of size `(s%256 + n) % 256` when that is nonzero; when `s` is not a
bundle boundary the first write targets `⌊s/256⌋` and extends the stored
partial row's bytes with a strictly greater size. -/
lemma integrate_spec (mRoot : Bytes) (mTiles : List ((Nat × Nat) × Bytes))
    (t : List (Nat × TiledLeavesRow)) (s : Nat) (entries : List Entry)
    (hpo : partialBundleOk t s = true) :
    ∃ W, integrate noFaults mRoot mTiles t s entries =
        .ok (W, mTiles, ⟨s + entries.length, mRoot⟩) ∧
      W.map BundleWrite.index = List.range' (s / 256) W.length ∧
      W.length = (s % 256 + entries.length) / 256 +
        (if (s % 256 + entries.length) % 256 = 0 then 0 else 1) ∧
      (∀ w ∈ W.dropLast, w.size = 256) ∧
      ((s % 256 + entries.length) % 256 ≠ 0 →
        ∃ w, W.getLast? = some w ∧ w.size = (s % 256 + entries.length) % 256) ∧
      ((s % 256 + entries.length) % 256 = 0 → ∀ w ∈ W, w.size = 256) ∧
      (s % 256 ≠ 0 → ∀ row, lookupTiledLeaves t (s / 256) = some row →
        ∃ w W', W = w :: W' ∧ w.index = s / 256 ∧ row.data <+: w.data ∧
          (0 < entries.length → row.size < w.size)) := by
  have hlen := sequencedEntries_length s entries
  -- the seed buffer: empty at a bundle boundary, the stored partial row otherwise
  obtain ⟨buf0, hread, hbuf0⟩ :
      ∃ buf0, readPartialBundle noFaults t (s / 256) (s % 256) = .ok buf0 ∧
        (s % 256 ≠ 0 → ∀ row, lookupTiledLeaves t (s / 256) = some row →
          buf0 = row.data ∧ row.size = s % 256) := by
    by_cases hr : s % 256 = 0
    · exact ⟨[], by simp [readPartialBundle, hr], fun h => absurd hr h⟩
    · simp only [partialBundleOk] at hpo
      rw [Bool.or_eq_true] at hpo
      rcases hpo with hpo | hpo
      · exact absurd (by simpa using hpo) hr
      · cases hlook : lookupTiledLeaves t (s / 256) with
        | none => rw [hlook] at hpo; simp at hpo
        | some row =>
          rw [hlook] at hpo
          have hsize : row.size = s % 256 := by simpa using hpo
          refine ⟨row.data, ?_, ?_⟩
          · simp [readPartialBundle, Nat.pos_of_ne_zero hr, hlook, hsize]
          · intro _ row' hlook'
            have hrr : row = row' := Option.some_inj.mp hlook'
            subst hrr
            exact ⟨rfl, hsize⟩
  obtain ⟨ws, buf', hloop, hidx, hsz, hcat, hnil, hhd⟩ :=
    bundleLoop_spec (sequencedEntries s entries) (s / 256) (s % 256) buf0
      (Nat.mod_lt s (by omega))
  rw [hlen] at hloop hidx
  have hwslen : ws.length = (s % 256 + entries.length) / 256 := by
    have := congrArg List.length hidx
    simpa using this
  by_cases htr : (s % 256 + entries.length) % 256 = 0
  · -- no trailing partial bundle
    have hfin : finishBundles noFaults ws
        (s / 256 + (s % 256 + entries.length) / 256)
        ((s % 256 + entries.length) % 256) buf' = .ok ws := by
      simp [finishBundles, htr]
    have hint : integrate noFaults mRoot mTiles t s entries =
        .ok (ws, mTiles, ⟨s + entries.length, mRoot⟩) := by
      simp only [integrate, EntryBundleWidth, hread, noFaults_writeBundle,
        except_bind_ok, hloop, hfin, noFaults_integrateTiles, noFaults_writeTile,
        noFaults_writeTreeState, Bool.false_eq_true, if_false]
      simp
    refine ⟨ws, hint, by rw [hidx, hwslen], by rw [hwslen, if_pos htr]; omega,
      ?_, ?_, ?_, ?_⟩
    · exact fun w hw => hsz w ((List.dropLast_sublist ws).mem hw)
    · exact fun h => absurd htr h
    · exact fun _ => hsz
    · -- first write extends the stored partial row
      intro hr row hlook
      obtain ⟨hbuf, hsize⟩ := hbuf0 hr row hlook
      have hpos : 0 < (s % 256 + entries.length) / 256 := by
        have h1 : 0 < s % 256 := Nat.pos_of_ne_zero hr
        omega
      obtain ⟨k, hk⟩ : ∃ k, (s % 256 + entries.length) / 256 = k + 1 :=
        ⟨_, (Nat.succ_pred_eq_of_pos hpos).symm⟩
      rw [hk, List.range'_succ] at hidx
      cases ws with
      | nil => simp at hidx
      | cons w0 ws' =>
        simp only [List.map_cons, List.cons.injEq] at hidx
        refine ⟨w0, ws', rfl, hidx.1, ?_, fun _ => ?_⟩
        · rw [hbuf] at hhd
          exact hhd w0 (by simp)
        · have h0 : w0.size = 256 := hsz w0 (by simp)
          have : row.size < 256 := by rw [hsize]; exact Nat.mod_lt s (by omega)
          omega
  · -- a trailing partial bundle is written
    have hfin : finishBundles noFaults ws
        (s / 256 + (s % 256 + entries.length) / 256)
        ((s % 256 + entries.length) % 256) buf' =
        .ok (ws ++ [⟨s / 256 + (s % 256 + entries.length) / 256,
          (s % 256 + entries.length) % 256, buf'⟩]) := by
      simp only [finishBundles, noFaults_writeBundle, Bool.false_eq_true, if_false]
      rw [if_pos (Nat.pos_of_ne_zero htr)]
    have hint : integrate noFaults mRoot mTiles t s entries =
        .ok (ws ++ [⟨s / 256 + (s % 256 + entries.length) / 256,
          (s % 256 + entries.length) % 256, buf'⟩], mTiles,
          ⟨s + entries.length, mRoot⟩) := by
      simp only [integrate, EntryBundleWidth, hread, noFaults_writeBundle,
        except_bind_ok, hloop, hfin, noFaults_integrateTiles, noFaults_writeTile,
        noFaults_writeTreeState, Bool.false_eq_true, if_false]
      simp
    set wt : BundleWrite := ⟨s / 256 + (s % 256 + entries.length) / 256,
      (s % 256 + entries.length) % 256, buf'⟩ with hwt
    have hWlen : (ws ++ [wt]).length =
        (s % 256 + entries.length) / 256 +
          (if (s % 256 + entries.length) % 256 = 0 then 0 else 1) := by
      rw [if_neg htr]
      simp [hwslen]
    refine ⟨ws ++ [wt], hint, ?_, hWlen, ?_, ?_, ?_, ?_⟩
    · rw [hWlen, if_neg htr]
      rw [List.map_append, hidx]
      simpa using range'_snoc (s / 256) ((s % 256 + entries.length) / 256)
    · intro w hw
      rw [List.dropLast_concat] at hw
      exact hsz w hw
    · intro _
      exact ⟨wt, by simp, rfl⟩
    · exact fun h => absurd h htr
    · -- first write extends the stored partial row
      intro hr row hlook
      obtain ⟨hbuf, hsize⟩ := hbuf0 hr row hlook
      cases ws with
      | nil =>
        have hdiv : (s % 256 + entries.length) / 256 = 0 := by
          rw [← hwslen]; rfl
        have hmod : (s % 256 + entries.length) % 256 = s % 256 + entries.length := by
          omega
        refine ⟨wt, [], rfl, ?_, ?_, fun hn => ?_⟩
        · rw [hwt]; simp [hdiv]
        · have hb : buf' = buf0 ++ bytesOf (sequencedEntries s entries) := hnil rfl
          rw [hwt]
          simp only []
          rw [hb, hbuf]
          exact List.prefix_append row.data (bytesOf (sequencedEntries s entries))
        · rw [hwt]
          simp only []
          omega
      | cons w0 ws' =>
        have hpos : 0 < (s % 256 + entries.length) / 256 := by
          rw [← hwslen]; simp
        obtain ⟨k, hk⟩ : ∃ k, (s % 256 + entries.length) / 256 = k + 1 :=
          ⟨_, (Nat.succ_pred_eq_of_pos hpos).symm⟩
        rw [hk, List.range'_succ] at hidx
        simp only [List.map_cons, List.cons.injEq] at hidx
        refine ⟨w0, ws' ++ [wt], rfl, hidx.1, ?_, fun _ => ?_⟩
        · rw [hbuf] at hhd
          exact hhd w0 (by simp)
        · have h0 : w0.size = 256 := hsz w0 (by simp)
          have : row.size < 256 := by rw [hsize]; exact Nat.mod_lt s (by omega)
          omega

/-- A successful `TiledLeaves` lookup comes from an entry of the table. -/
lemma lookupTiledLeaves_mem (t : List (Nat × TiledLeavesRow)) (i : Nat)
    (r : TiledLeavesRow) (h : lookupTiledLeaves t i = some r) : (i, r) ∈ t := by
  induction t with
  | nil => cases h
  | cons p rest ih =>
    obtain ⟨k, row⟩ := p
    simp only [lookupTiledLeaves] at h
    by_cases hk : k = i
    · rw [if_pos hk] at h
      subst hk
      simp only [Option.some.injEq] at h
      subst h
      exact List.mem_cons_self _ _
    · rw [if_neg hk] at h
      exact List.mem_cons_of_mem _ (ih h)

/-- Unpacking `tiledLeavesConsistent`: every row key is below the bundle
frontier, the partial row (if the size is not a boundary) has the right
size, and `partialBundleOk` holds. -/
lemma tiledLeavesConsistent_facts (t : List (Nat × TiledLeavesRow)) (s : Nat)
    (h : tiledLeavesConsistent t s = true) :
    (∀ p ∈ t, p.1 < numBundles s) ∧
    (s % 256 ≠ 0 → ∀ row, lookupTiledLeaves t (s / 256) = some row →
      row.size = s % 256) ∧
    partialBundleOk t s = true := by
  simp only [tiledLeavesConsistent, Bool.and_eq_true, List.all_eq_true] at h
  obtain ⟨hkeys, hpart⟩ := h
  refine ⟨fun p hp => by simpa using hkeys p hp, ?_, ?_⟩
  · intro hr row hlook
    rw [if_neg hr, hlook] at hpart
    simpa using hpart
  · simp only [partialBundleOk, Bool.or_eq_true]
    by_cases hr : s % 256 = 0
    · left; simpa using hr
    · right
      rw [if_neg hr] at hpart
      cases hlook : lookupTiledLeaves t (s / 256) with
      | none => rw [hlook] at hpart; simp at hpart
      | some row => rw [hlook] at hpart; simpa using hpart

/-- A failing `readPartialBundle` fails with the query error, the scan
(missing-row) error, or the size-mismatch error for the actually stored
row. -/
lemma readPartialBundle_error (f : Faults) (t : List (Nat × TiledLeavesRow))
    (bi eib : Nat) (e : IntErr) (h : readPartialBundle f t bi eib = .error e) :
    e = .queryPartial ∨ e = .scanPartial ∨
    ∃ row, lookupTiledLeaves t bi = some row ∧ row.size ≠ eib ∧
      e = .sizeMismatch eib row.size := by
  simp only [readPartialBundle] at h
  split at h
  · split at h
    · left; cases h; rfl
    · split at h
      · right; left; cases h; rfl
      · rename_i row hlook
        split at h
        · rename_i hne
          right; right
          exact ⟨row, hlook, hne, by cases h; rfl⟩
        · cases h
  · cases h

/-- A failing `bundleLoop` fails with the bundle-write error. -/
lemma bundleLoop_error_eq (wf : Nat → Bool) (es : List SequencedEntry) :
    ∀ (bi eib : Nat) (buf : Bytes) (e : IntErr),
      bundleLoop wf es bi eib buf = .error e → e = .writeBundle := by
  induction es with
  | nil => intro bi eib buf e h; cases h
  | cons x rest ih =>
    intro bi eib buf e h
    simp only [bundleLoop] at h
    split at h
    · split at h
      · cases h; rfl
      · split at h
        · rename_i h2
          cases h
          exact ih _ _ _ _ h2
        · cases h
    · exact ih _ _ _ _ h

/-- A failing `finishBundles` fails with the bundle-write error. -/
lemma finishBundles_error (f : Faults) (ws : List BundleWrite) (bi eib : Nat)
    (buf : Bytes) (e : IntErr) (h : finishBundles f ws bi eib buf = .error e) :
    e = .writeBundle := by
  simp only [finishBundles] at h
  split at h
  · split at h
    · cases h; rfl
    · cases h
  · cases h

/-- Error classification for `integrate`: the only way to get a
size-mismatch error is from the stored partial row actually having the
wrong size. -/
lemma integrate_error_classes (f : Faults) (mRoot : Bytes)
    (mTiles : List ((Nat × Nat) × Bytes)) (t : List (Nat × TiledLeavesRow))
    (s : Nat) (entries : List Entry) (e : IntErr)
    (h : integrate f mRoot mTiles t s entries = .error e) :
    e = .queryPartial ∨ e = .scanPartial ∨ e = .writeBundle ∨
    e = .integrateTiles ∨ e = .writeTile ∨ e = .writeTreeState ∨
    ∃ row, lookupTiledLeaves t (s / 256) = some row ∧ row.size ≠ s % 256 ∧
      e = .sizeMismatch (s % 256) row.size := by
  simp only [integrate, EntryBundleWidth] at h
  cases hrp : readPartialBundle f t (s / 256) (s % 256) with
  | error e1 =>
    rw [hrp, except_bind_error] at h
    cases h
    rcases readPartialBundle_error f t (s / 256) (s % 256) e hrp with h1 | h1 | h1
    · exact Or.inl h1
    · exact Or.inr (Or.inl h1)
    · exact Or.inr (Or.inr (Or.inr (Or.inr (Or.inr (Or.inr h1)))))
  | ok buf =>
    rw [hrp, except_bind_ok] at h
    cases hbl : bundleLoop f.writeBundle (sequencedEntries s entries)
        (s / 256) (s % 256) buf with
    | error e2 =>
      rw [hbl, except_bind_error] at h
      cases h
      exact Or.inr (Or.inr (Or.inl (bundleLoop_error_eq _ _ _ _ _ _ hbl)))
    | ok r =>
      obtain ⟨ws, bi', eib', buf'⟩ := r
      rw [hbl, except_bind_ok] at h
      cases hfb : finishBundles f ws bi' eib' buf' with
      | error e3 =>
        rw [hfb, except_bind_error] at h
        cases h
        exact Or.inr (Or.inr (Or.inl (finishBundles_error _ _ _ _ _ _ hfb)))
      | ok W =>
        rw [hfb, except_bind_ok] at h
        split at h
        · cases h; exact Or.inr (Or.inr (Or.inr (Or.inl rfl)))
        · split at h
          · cases h; exact Or.inr (Or.inr (Or.inr (Or.inr (Or.inl rfl))))
          · split at h
            · cases h
              exact Or.inr (Or.inr (Or.inr (Or.inr (Or.inr (Or.inl rfl)))))
            · cases h

/-- Read policy of `ReadTile` on a stored tile: the stored bytes are
returned iff the stored number of hashes is at least the (effective)
requested partial size; otherwise `NotFound`. -/
lemma readTile_policy (db : DB) (level index p : Nat) (tile : Bytes)
    (h : lookupSubtree db.subtree level index = some tile) :
    (ReadTile db level index p = .ok tile ↔
      (if p = 0 then TileWidth else p) ≤ tile.length / sha256Size) ∧
    (tile.length / sha256Size < (if p = 0 then TileWidth else p) →
      ReadTile db level index p = .error .notFound) := by
  have hq : ReadTile db level index p =
      if tile.length / sha256Size < (if p = 0 then TileWidth else p)
      then .error .notFound else .ok tile := by
    simp only [ReadTile, h]
  rw [hq]
  by_cases hc : tile.length / sha256Size < (if p = 0 then TileWidth else p)
  · rw [if_pos hc]
    exact ⟨by simp; omega, fun _ => rfl⟩
  · rw [if_neg hc]
    exact ⟨by simp; omega, fun hlt => by omega⟩

/-- Read policy of `ReadEntryBundle` on a stored bundle: the stored bytes
are returned iff the stored `size` column is at least the (effective)
requested partial size; otherwise `NotFound`. -/
lemma readEntryBundle_policy (db : DB) (index p : Nat) (row : TiledLeavesRow)
    (h : lookupTiledLeaves db.tiledLeaves index = some row) :
    (ReadEntryBundle db index p = .ok row.data ↔
      (if p = 0 then EntryBundleWidth else p) ≤ row.size) ∧
    (row.size < (if p = 0 then EntryBundleWidth else p) →
      ReadEntryBundle db index p = .error .notFound) := by
  have hq : ReadEntryBundle db index p =
      if row.size < (if p = 0 then EntryBundleWidth else p)
      then .error .notFound else .ok row.data := by
    simp only [ReadEntryBundle, h]
  rw [hq]
  by_cases hc : row.size < (if p = 0 then EntryBundleWidth else p)
  · rw [if_pos hc]
    exact ⟨by simp; omega, fun _ => rfl⟩
  · rw [if_neg hc]
    exact ⟨by simp; omega, fun hlt => by omega⟩

/-- C3: For every stored tile (resp. entry bundle) and requested partial
size `p` (`p = 0` meaning a full 256-entry request), `ReadTile`
(resp. `ReadEntryBundle`) returns the stored bytes untrimmed iff the stored
size is at least the requested size, and `NotFound` otherwise. -/
theorem read_partial_policy (db : DB) (level index bindex p : Nat)
    (_hp : p < 256) :
    (∀ tile, lookupSubtree db.subtree level index = some tile →
      (ReadTile db level index p = .ok tile ↔
        (if p = 0 then TileWidth else p) ≤ tile.length / sha256Size) ∧
      (tile.length / sha256Size < (if p = 0 then TileWidth else p) →
        ReadTile db level index p = .error .notFound)) ∧
    (∀ row, lookupTiledLeaves db.tiledLeaves bindex = some row →
      (ReadEntryBundle db bindex p = .ok row.data ↔
        (if p = 0 then EntryBundleWidth else p) ≤ row.size) ∧
      (row.size < (if p = 0 then EntryBundleWidth else p) →
        ReadEntryBundle db bindex p = .error .notFound)) :=
  ⟨fun tile h => readTile_policy db level index p tile h,
   fun row h => readEntryBundle_policy db bindex p row h⟩

/-- Witness for C3: a stored 1-hash tile is returned for a request of
partial size 1 and is `NotFound` for the (full) request `p = 0`. -/
theorem read_partial_policy_witness :
    ReadTile ⟨none, none, [((0, 0), List.replicate 32 7)], []⟩ 0 0 1 =
      .ok (List.replicate 32 7) :=
  (((read_partial_policy ⟨none, none, [((0, 0), List.replicate 32 7)], []⟩
      0 0 0 1 (by decide)).1 (List.replicate 32 7) rfl).1).mpr (by decide)

/-- C9: a partial parameter of `0` is interpreted as a request for a full
object of width 256: the stored bytes are returned iff the stored tile has
at least `TileWidth` hashes (resp. the stored bundle has recorded size at
least `EntryBundleWidth`), and any smaller stored object is `NotFound`. -/
theorem read_zero_requests_full (db : DB) (level index bindex : Nat) :
    (∀ tile, lookupSubtree db.subtree level index = some tile →
      (ReadTile db level index 0 = .ok tile ↔
        TileWidth ≤ tile.length / sha256Size) ∧
      (tile.length / sha256Size < TileWidth →
        ReadTile db level index 0 = .error .notFound)) ∧
    (∀ row, lookupTiledLeaves db.tiledLeaves bindex = some row →
      (ReadEntryBundle db bindex 0 = .ok row.data ↔
        EntryBundleWidth ≤ row.size) ∧
      (row.size < EntryBundleWidth →
        ReadEntryBundle db bindex 0 = .error .notFound)) :=
  ⟨fun tile h => by simpa using readTile_policy db level index 0 tile h,
   fun row h => by simpa using readEntryBundle_policy db bindex 0 row h⟩

/-- Witness for C9: with `p = 0`, a stored bundle of recorded size 256 is
returned in full. -/
theorem read_zero_requests_full_witness :
    ReadEntryBundle ⟨none, none, [], [(0, ⟨256, [1, 2]⟩)]⟩ 0 0 = .ok [1, 2] :=
  (((read_zero_requests_full ⟨none, none, [], [(0, ⟨256, [1, 2]⟩)]⟩
      0 0 0).2 ⟨256, [1, 2]⟩ rfl).1).mpr (by decide)

/-- C7: on a fresh log (no TreeState row), construction initialises and
commits TreeState to `(0, H())` where `H()` is the RFC 6962 empty-tree
root; when a TreeState row already exists it is left unchanged. -/
theorem maybeInitTree_fresh_or_noop (st : Storage) :
    (st.db.treeState = none →
      (maybeInitTree st).db.treeState = some ⟨0, emptyRoot⟩) ∧
    (∀ r, st.db.treeState = some r →
      (maybeInitTree st).db.treeState = some r) := by
  constructor
  · intro h; simp [maybeInitTree, h]
  · intro r h; simp [maybeInitTree, h]

/-- Witness for C7: a fresh database gets the `(0, emptyRoot)` row. -/
theorem maybeInitTree_fresh_or_noop_witness :
    (maybeInitTree ⟨⟨none, none, [], []⟩, ⟨0, []⟩⟩).db.treeState =
      some ⟨0, emptyRoot⟩ :=
  (maybeInitTree_fresh_or_noop ⟨⟨none, none, [], []⟩, ⟨0, []⟩⟩).1 rfl

/-- C8: `New` rejects every `CheckpointInterval` below one second with an
error (no `Storage` is returned), and succeeds for intervals of at least
one second when a checkpoint signer is configured. -/
theorem new_interval_bounds (intervalNs : Int) (newCP : Option NewCPFunc)
    (db : DB) :
    (intervalNs < minCheckpointIntervalNs →
      new intervalNs newCP db = .error .intervalTooLow) ∧
    (minCheckpointIntervalNs ≤ intervalNs → ∀ cpf, newCP = some cpf →
      new intervalNs newCP db = .ok (maybeInitTree ⟨db, ⟨0, []⟩⟩)) := by
  constructor
  · intro h; simp [new, h]
  · intro h cpf hf
    simp [new, hf, not_lt.mpr h]

/-- Witness for C8: an interval of 0 ns is rejected; 1 s with a signer
succeeds. -/
theorem new_interval_bounds_witness :
    new 0 none ⟨none, none, [], []⟩ = .error .intervalTooLow ∧
    new 1000000000 (some fun _ _ => .ok []) ⟨none, none, [], []⟩ =
      .ok (maybeInitTree ⟨⟨none, none, [], []⟩, ⟨0, []⟩⟩) :=
  ⟨(new_interval_bounds 0 none ⟨none, none, [], []⟩).1 (by decide),
   (new_interval_bounds 1000000000 (some fun _ _ => .ok [])
      ⟨none, none, [], []⟩).2 (by decide) _ rfl⟩

/-- C5: when the stored checkpoint's `published_at` is less than
`CheckpointInterval` in the past, `publishCheckpoint` returns success
without writing; hence a second publish within one interval of a first
(writing) publish leaves the storage — in particular the Checkpoint row's
note bytes and `published_at` — unchanged. -/
theorem publish_rate_limited_idempotent (newCP : NewCPFunc) (intervalNs : Int)
    (st : Storage) (nowMs nowMs' : Int) :
    (∀ cp, st.db.checkpoint = some cp →
      (nowMs - cp.publishedAt) * 1000000 < intervalNs →
      publishCheckpoint newCP intervalNs nowMs st = (.ok (), st)) ∧
    (intervalNs ≤ (nowMs - cpPublishedAt st.db) * 1000000 →
      ∀ note, newCP st.state.size st.state.root = .ok note →
      (nowMs' - nowMs) * 1000000 < intervalNs →
      publishCheckpoint newCP intervalNs nowMs'
          (publishCheckpoint newCP intervalNs nowMs st).2 =
        (.ok (), (publishCheckpoint newCP intervalNs nowMs st).2)) := by
  constructor
  · intro cp hcp hlt
    have hat : cpPublishedAt st.db = cp.publishedAt := by
      simp [cpPublishedAt, hcp]
    simp only [publishCheckpoint, hat]
    rw [if_pos hlt]
  · intro hge note hnote hlt
    have h1 : publishCheckpoint newCP intervalNs nowMs st =
        (.ok (), { st with db := { st.db with
          checkpoint := some ⟨note, st.state.size, st.state.root, nowMs⟩ } }) := by
      simp only [publishCheckpoint]
      rw [if_neg (by omega), hnote]
    rw [h1]
    simp only [publishCheckpoint, cpPublishedAt]
    rw [if_pos (by simpa using hlt)]

/-- Witness for C5: a publish at `now = 0` against a row published at 0
with a 1-second interval is a no-op returning success. -/
theorem publish_rate_limited_idempotent_witness :
    publishCheckpoint (fun _ _ => .ok []) 1000000000 0
        ⟨⟨some ⟨[], 0, [], 0⟩, none, [], []⟩, ⟨0, []⟩⟩ =
      (.ok (), ⟨⟨some ⟨[], 0, [], 0⟩, none, [], []⟩, ⟨0, []⟩⟩) :=
  (publish_rate_limited_idempotent (fun _ _ => .ok []) 1000000000
      ⟨⟨some ⟨[], 0, [], 0⟩, none, [], []⟩, ⟨0, []⟩⟩ 0 0).1
    ⟨[], 0, [], 0⟩ rfl (by decide)

/-- C2: whenever `sequenceBatch` fails — any failing step of `integrate`:
reading the stored partial bundle, computing the tiles, or any write —
the transaction is rolled back and the storage (database rows and the
cached tree state returned by `readTreeState`) is exactly as before the
call. -/
theorem sequenceBatch_error_rollback (f : Faults) (mRoot : Bytes)
    (mTiles : List ((Nat × Nat) × Bytes)) (st : Storage)
    (entries : List Entry) (e : IntErr)
    (h : (sequenceBatch f mRoot mTiles st entries).1 = .error e) :
    (sequenceBatch f mRoot mTiles st entries).2 = st := by
  by_cases h0 : entries.length = 0
  · rw [sequenceBatch, if_pos h0] at h
    simp at h
  · rw [sequenceBatch, if_neg h0] at h ⊢
    cases hi : integrate f mRoot mTiles st.db.tiledLeaves st.state.size entries with
    | error e' => simp
    | ok v =>
      obtain ⟨W, tws, ts⟩ := v
      rw [hi] at h
      simp at h

/-- Witness for C2: an injected failure of the partial-bundle read aborts
the batch and leaves the storage untouched. -/
theorem sequenceBatch_error_rollback_witness :
    (sequenceBatch ⟨true, fun _ => false, false, fun _ => false, false⟩ [] []
        ⟨⟨none, none, [], []⟩, ⟨1, []⟩⟩ [⟨fun _ => [], []⟩]).2 =
      ⟨⟨none, none, [], []⟩, ⟨1, []⟩⟩ :=
  sequenceBatch_error_rollback _ _ _ _ _ .queryPartial rfl

/-- C1: integrating a batch of `n ≥ 1` entries at tree size `s` serialises
entry `i` with index `s + i` (admission order); the bundle writes go to
consecutive indices starting at `⌊s/256⌋`, each index written exactly once;
when `s % 256 ≠ 0` the first write extends the stored partially-filled
bundle `⌊s/256⌋`; every non-trailing write is a full bundle of size 256,
and the trailing write has size `(s + n) % 256` when that is nonzero
(otherwise all writes, the last included, have size 256). -/
theorem integrate_bundle_layout (mRoot : Bytes)
    (mTiles : List ((Nat × Nat) × Bytes)) (t : List (Nat × TiledLeavesRow))
    (s : Nat) (entries : List Entry) (_hn : 0 < entries.length)
    (hpo : partialBundleOk t s = true) :
    (∀ i : Nat, (sequencedEntries s entries)[i]? =
        entries[i]?.map (fun e => ⟨e.bundleData (s + i), e.leafHash⟩)) ∧
    ∃ W, integrate noFaults mRoot mTiles t s entries =
        .ok (W, mTiles, ⟨s + entries.length, mRoot⟩) ∧
      W.map BundleWrite.index = List.range' (s / 256) W.length ∧
      (W.map BundleWrite.index).Nodup ∧
      (∀ w ∈ W.dropLast, w.size = 256) ∧
      ((s + entries.length) % 256 = 0 → ∀ w ∈ W, w.size = 256) ∧
      ((s + entries.length) % 256 ≠ 0 →
        ∃ w, W.getLast? = some w ∧ w.size = (s + entries.length) % 256) ∧
      (s % 256 ≠ 0 → ∀ row, lookupTiledLeaves t (s / 256) = some row →
        ∃ w W', W = w :: W' ∧ w.index = s / 256 ∧ row.data <+: w.data) := by
  obtain ⟨W, hok, hidx, _hlen, hdl, hlast, hall, hpart⟩ :=
    integrate_spec mRoot mTiles t s entries hpo
  have hmod : (s % 256 + entries.length) % 256 = (s + entries.length) % 256 := by
    omega
  refine ⟨fun i => sequencedEntries_getElem entries s i,
    W, hok, hidx, ?_, hdl, ?_, ?_, ?_⟩
  · rw [hidx]
    apply List.nodup_range'
    omega
  · intro h
    exact hall (by omega)
  · intro h
    obtain ⟨w, hw, hwsz⟩ := hlast (by omega)
    exact ⟨w, hw, by omega⟩
  · intro hr row hlook
    obtain ⟨w, W', he, hi, hpre, _⟩ := hpart hr row hlook
    exact ⟨w, W', he, hi, hpre⟩

/-- Witness for C1: integrating one entry at size 1 on top of the stored
partial bundle `(0, size 1, [9])` serialises it with index 1. -/
theorem integrate_bundle_layout_witness :
    (sequencedEntries 1 [⟨fun i => [100 + i], [3]⟩])[0]? =
      [(⟨fun i => [100 + i], [3]⟩ : Entry)][0]?.map
        (fun e => ⟨e.bundleData (1 + 0), e.leafHash⟩) :=
  (integrate_bundle_layout [] [] [(0, ⟨1, [9]⟩)] 1 [⟨fun i => [100 + i], [3]⟩]
    (by decide) (by decide)).1 0

/-- C6: under a `TiledLeaves` table consistent with tree size `s`, every
bundle write of an integration that targets an existing row rewrites a row
of size `< 256` (full rows are never rewritten) with a strictly greater
size, and the old row's bytes are a prefix of the new bytes. -/
theorem integrate_rewrite_extends (mRoot : Bytes)
    (mTiles : List ((Nat × Nat) × Bytes)) (t : List (Nat × TiledLeavesRow))
    (s : Nat) (entries : List Entry) (W : List BundleWrite)
    (tws : List ((Nat × Nat) × Bytes)) (ts : TreeStateRow)
    (hn : 0 < entries.length) (hcons : tiledLeavesConsistent t s = true)
    (hok : integrate noFaults mRoot mTiles t s entries = .ok (W, tws, ts)) :
    ∀ w ∈ W, ∀ old, lookupTiledLeaves t w.index = some old →
      old.size < 256 ∧ old.size < w.size ∧ old.data <+: w.data := by
  obtain ⟨hkeys, hpsize, hpo⟩ := tiledLeavesConsistent_facts t s hcons
  obtain ⟨W0, hok0, hidx, _hlen, _hdl, _hlast, _hall, hpart⟩ :=
    integrate_spec mRoot mTiles t s entries hpo
  have hW : W0 = W := by
    have h := hok0.symm.trans hok
    simp only [Except.ok.injEq, Prod.mk.injEq] at h
    exact h.1
  subst hW
  intro w hw old hold
  have hmem := lookupTiledLeaves_mem t w.index old hold
  have hkey : w.index < numBundles s := hkeys _ hmem
  have hval : s / 256 ≤ w.index := by
    have : w.index ∈ List.map BundleWrite.index W0 := List.mem_map_of_mem _ hw
    rw [hidx] at this
    exact (List.mem_range'_1.mp this).1
  by_cases hr : s % 256 = 0
  · exfalso
    have : numBundles s = s / 256 := by unfold numBundles; omega
    omega
  · have hwi : w.index = s / 256 := by
      have : numBundles s = s / 256 + 1 := by unfold numBundles; omega
      omega
    rw [hwi] at hold
    obtain ⟨w0, W', hWe, hw0i, hpre, hstrict⟩ := hpart hr old hold
    have hww0 : w = w0 := by
      rw [hWe] at hw
      rcases List.mem_cons.mp hw with h | h
      · exact h
      · exfalso
        have h1 : w.index ∈ List.map BundleWrite.index W' :=
          List.mem_map_of_mem _ h
        have h2 : List.map BundleWrite.index W0 =
            List.range' (s / 256) W0.length := hidx
        rw [hWe] at h2
        cases hL : W0.length with
        | zero => rw [hWe] at hL; simp at hL
        | succ k =>
          rw [hWe] at hL
          rw [hL, List.range'_succ] at h2
          simp only [List.map_cons, List.cons.injEq] at h2
          rw [h2.2] at h1
          have := (List.mem_range'_1.mp h1).1
          omega
    subst hww0
    have hos : old.size = s % 256 := hpsize hr old hold
    refine ⟨by omega, hstrict hn, hpre⟩

/-- Witness for C6: integrating one entry at size 1 rewrites the stored
partial row `(size 1, [9])` to a strictly larger row extending `[9]`. -/
theorem integrate_rewrite_extends_witness :
    (1 : Nat) < 256 ∧ (⟨1, [9]⟩ : TiledLeavesRow).size < 2 ∧
      ([9] : Bytes) <+: [9, 101] :=
  integrate_rewrite_extends [] [] [(0, ⟨1, [9]⟩)] 1 [⟨fun i => [100 + i], [3]⟩]
    [⟨0, 2, [9, 101]⟩] [] ⟨2, []⟩ (by decide) (by decide) rfl
    ⟨0, 2, [9, 101]⟩ (by decide) ⟨1, [9]⟩ rfl

/-- C10: when integrating at a tree size `s` with `s % 256 ≠ 0`, a missing
stored bundle row at `⌊s/256⌋`, or one whose recorded size differs from
`s % 256`, makes `integrate` fail and `sequenceBatch` leave the storage
unchanged (the batch is not committed); and whenever the stored row's size
equals `s % 256`, the corrupted-prefix (size-mismatch) error branch is
unreachable for every fault oracle. -/
theorem integrate_partial_size_guard (mRoot : Bytes)
    (mTiles : List ((Nat × Nat) × Bytes)) (st : Storage)
    (entries : List Entry) (hne : entries.length ≠ 0)
    (hr : st.state.size % 256 ≠ 0) :
    (lookupTiledLeaves st.db.tiledLeaves (st.state.size / 256) = none →
      integrate noFaults mRoot mTiles st.db.tiledLeaves st.state.size entries =
        .error .scanPartial ∧
      sequenceBatch noFaults mRoot mTiles st entries = (.error .scanPartial, st)) ∧
    (∀ row, lookupTiledLeaves st.db.tiledLeaves (st.state.size / 256) = some row →
      row.size ≠ st.state.size % 256 →
      integrate noFaults mRoot mTiles st.db.tiledLeaves st.state.size entries =
        .error (.sizeMismatch (st.state.size % 256) row.size) ∧
      sequenceBatch noFaults mRoot mTiles st entries =
        (.error (.sizeMismatch (st.state.size % 256) row.size), st)) ∧
    (∀ row, lookupTiledLeaves st.db.tiledLeaves (st.state.size / 256) = some row →
      row.size = st.state.size % 256 →
      ∀ (f : Faults) (a b : Nat),
        integrate f mRoot mTiles st.db.tiledLeaves st.state.size entries ≠
          .error (.sizeMismatch a b)) := by
  refine ⟨?_, ?_, ?_⟩
  · intro hlook
    have hread : readPartialBundle noFaults st.db.tiledLeaves
        (st.state.size / 256) (st.state.size % 256) = .error .scanPartial := by
      simp [readPartialBundle, Nat.pos_of_ne_zero hr, hlook]
    have hint : integrate noFaults mRoot mTiles st.db.tiledLeaves
        st.state.size entries = .error .scanPartial := by
      simp only [integrate, EntryBundleWidth, hread, except_bind_error]
    refine ⟨hint, ?_⟩
    rw [sequenceBatch, if_neg hne, hint]
  · intro row hlook hsz
    have hread : readPartialBundle noFaults st.db.tiledLeaves
        (st.state.size / 256) (st.state.size % 256) =
        .error (.sizeMismatch (st.state.size % 256) row.size) := by
      simp only [readPartialBundle, noFaults_readPartial, Bool.false_eq_true,
        if_false, hlook]
      rw [if_pos (Nat.pos_of_ne_zero hr), if_pos hsz]
    have hint : integrate noFaults mRoot mTiles st.db.tiledLeaves
        st.state.size entries =
        .error (.sizeMismatch (st.state.size % 256) row.size) := by
      simp only [integrate, EntryBundleWidth, hread, except_bind_error]
    refine ⟨hint, ?_⟩
    rw [sequenceBatch, if_neg hne, hint]
  · intro row hlook hsz f a b hcontra
    rcases integrate_error_classes f mRoot mTiles st.db.tiledLeaves
        st.state.size entries _ hcontra with
      h | h | h | h | h | h | ⟨row', hlook', hne', heq⟩
    all_goals first
      | (cases h)
      | (have : row = row' := Option.some_inj.mp (hlook.symm.trans hlook')
         subst this
         exact hne' hsz)

/-- A successful `integrate` hands back the modified tiles and the new
tree state `(fromSeq + n, newRoot)`. -/
lemma integrate_ok_treeState (f : Faults) (mRoot : Bytes)
    (mTiles : List ((Nat × Nat) × Bytes)) (t : List (Nat × TiledLeavesRow))
    (s : Nat) (entries : List Entry) (W : List BundleWrite)
    (tws : List ((Nat × Nat) × Bytes)) (ts : TreeStateRow)
    (h : integrate f mRoot mTiles t s entries = .ok (W, tws, ts)) :
    tws = mTiles ∧ ts = ⟨s + entries.length, mRoot⟩ := by
  simp only [integrate] at h
  cases hrp : readPartialBundle f t (s / EntryBundleWidth) (s % EntryBundleWidth) with
  | error e1 => rw [hrp, except_bind_error] at h; cases h
  | ok buf =>
    rw [hrp, except_bind_ok] at h
    cases hbl : bundleLoop f.writeBundle (sequencedEntries s entries)
        (s / EntryBundleWidth) (s % EntryBundleWidth) buf with
    | error e2 => rw [hbl, except_bind_error] at h; cases h
    | ok r =>
      obtain ⟨ws, bi', eib', buf'⟩ := r
      rw [hbl, except_bind_ok] at h
      cases hfb : finishBundles f ws bi' eib' buf' with
      | error e3 => rw [hfb, except_bind_error] at h; cases h
      | ok W' =>
        rw [hfb, except_bind_ok] at h
        split at h
        · cases h
        · split at h
          · cases h
          · split at h
            · cases h
            · simp only [Except.ok.injEq, Prod.mk.injEq] at h
              exact ⟨h.2.1.symm, h.2.2.symm⟩

/-- A batch never touches the Checkpoint row and never shrinks the cached
tree size. -/
lemma sequenceBatch_checkpoint_eq (f : Faults) (mRoot : Bytes)
    (mTiles : List ((Nat × Nat) × Bytes)) (st : Storage)
    (entries : List Entry) :
    (sequenceBatch f mRoot mTiles st entries).2.db.checkpoint =
      st.db.checkpoint ∧
    st.state.size ≤ (sequenceBatch f mRoot mTiles st entries).2.state.size := by
  rw [sequenceBatch]
  split
  · exact ⟨rfl, le_refl _⟩
  · cases hi : integrate f mRoot mTiles st.db.tiledLeaves st.state.size entries with
    | error e => exact ⟨rfl, le_refl _⟩
    | ok v =>
      obtain ⟨W, tws, ts⟩ := v
      obtain ⟨-, hts⟩ := integrate_ok_treeState f mRoot mTiles st.db.tiledLeaves
        st.state.size entries W tws ts hi
      subst hts
      exact ⟨rfl, by simp⟩

/-- A publish preserves the size invariant, leaves the cached tree state
alone, and only moves the checkpoint's `(size, published_at)` pair up. -/
lemma publish_step_mono (newCP : NewCPFunc) (intervalNs : Int)
    (hI : 0 < intervalNs) (nowMs : Int) (st : Storage)
    (hinv : cpSizeOK st = true) :
    cpSizeOK (publishCheckpoint newCP intervalNs nowMs st).2 = true ∧
    (publishCheckpoint newCP intervalNs nowMs st).2.state = st.state ∧
    ∀ cp, st.db.checkpoint = some cp →
      ∃ cp', (publishCheckpoint newCP intervalNs nowMs st).2.db.checkpoint =
          some cp' ∧ cp.size ≤ cp'.size ∧ cp.publishedAt ≤ cp'.publishedAt := by
  simp only [publishCheckpoint]
  by_cases hc : (nowMs - cpPublishedAt st.db) * 1000000 < intervalNs
  · rw [if_pos hc]
    exact ⟨hinv, rfl, fun cp hcp => ⟨cp, hcp, le_refl _, le_refl _⟩⟩
  · rw [if_neg hc]
    cases hn : newCP st.state.size st.state.root with
    | error e => exact ⟨hinv, rfl, fun cp hcp => ⟨cp, hcp, le_refl _, le_refl _⟩⟩
    | ok note =>
      refine ⟨by simp [cpSizeOK], rfl, ?_⟩
      intro cp hcp
      refine ⟨⟨note, st.state.size, st.state.root, nowMs⟩, by simp, ?_, ?_⟩
      · simp only [cpSizeOK, hcp] at hinv
        simpa using hinv
      · have hat : cpPublishedAt st.db = cp.publishedAt := by
          simp [cpPublishedAt, hcp]
        rw [hat] at hc
        show cp.publishedAt ≤ nowMs
        omega

/-- One write-path step preserves the size invariant and only moves the
checkpoint's `(size, published_at)` pair up. -/
lemma step_mono (newCP : NewCPFunc) (intervalNs : Int) (hI : 0 < intervalNs)
    (st : Storage) (e : Event) (hinv : cpSizeOK st = true) :
    cpSizeOK (step newCP intervalNs st e) = true ∧
    ∀ cp, st.db.checkpoint = some cp →
      ∃ cp', (step newCP intervalNs st e).db.checkpoint = some cp' ∧
        cp.size ≤ cp'.size ∧ cp.publishedAt ≤ cp'.publishedAt := by
  cases e with
  | batch f mRoot mTiles entries =>
    obtain ⟨hcp, hsz⟩ := sequenceBatch_checkpoint_eq f mRoot mTiles st entries
    constructor
    · simp only [step, cpSizeOK, hcp]
      simp only [cpSizeOK] at hinv
      cases hcp0 : st.db.checkpoint with
      | none => simp
      | some cp =>
        rw [hcp0] at hinv
        simp only [decide_eq_true_eq] at hinv ⊢
        omega
    · intro cp hcp0
      exact ⟨cp, by simp only [step, hcp]; exact hcp0, le_refl _, le_refl _⟩
  | publish nowMs =>
    obtain ⟨h1, h2, h3⟩ := publish_step_mono newCP intervalNs hI nowMs st hinv
    exact ⟨h1, h3⟩

/-- C4: along every sequence of write-path events (batches and publishes),
if the committed checkpoint size is at most the integrated tree size
initially, it stays so after every step — each publish commits to the
current `readTreeState` size — and the published checkpoint's
`(size, published_at)` pair is monotonically non-decreasing: the committed
size never shrinks and `published_at` never moves backwards. -/
theorem checkpoint_monotone (newCP : NewCPFunc) (intervalNs : Int)
    (hI : 0 < intervalNs) (evs : List Event) :
    ∀ st : Storage, cpSizeOK st = true →
    cpSizeOK (run newCP intervalNs st evs) = true ∧
    ∀ cp, st.db.checkpoint = some cp →
      ∃ cp', (run newCP intervalNs st evs).db.checkpoint = some cp' ∧
        cp.size ≤ cp'.size ∧ cp.publishedAt ≤ cp'.publishedAt := by
  induction evs with
  | nil =>
    intro st h
    exact ⟨h, fun cp hcp => ⟨cp, hcp, le_refl _, le_refl _⟩⟩
  | cons e rest ih =>
    intro st h
    simp only [run]
    obtain ⟨h1, h2⟩ := step_mono newCP intervalNs hI st e h
    obtain ⟨h3, h4⟩ := ih (step newCP intervalNs st e) h1
    refine ⟨h3, ?_⟩
    intro cp hcp
    obtain ⟨cp1, hcp1, hs1, hp1⟩ := h2 cp hcp
    obtain ⟨cp2, hcp2, hs2, hp2⟩ := h4 cp1 hcp1
    exact ⟨cp2, hcp2, le_trans hs1 hs2, le_trans hp1 hp2⟩

/-- Witness for C4: a publish after one second on a checkpoint published at
time 0 keeps the committed-size invariant. -/
theorem checkpoint_monotone_witness :
    cpSizeOK (run (fun _ _ => .ok []) 1000000000
        ⟨⟨some ⟨[], 0, [], 0⟩, none, [], []⟩, ⟨0, []⟩⟩ [.publish 2000]) = true :=
  (checkpoint_monotone (fun _ _ => .ok []) 1000000000 (by decide) [.publish 2000]
    ⟨⟨some ⟨[], 0, [], 0⟩, none, [], []⟩, ⟨0, []⟩⟩ (by decide)).1

/-- Witness for C10: at size 1 with no stored row at index 0, the batch
fails with the scan error and is not committed. -/
theorem integrate_partial_size_guard_witness :
    sequenceBatch noFaults [] [] ⟨⟨none, none, [], []⟩, ⟨1, []⟩⟩
        [⟨fun _ => [7], []⟩] =
      (.error .scanPartial, ⟨⟨none, none, [], []⟩, ⟨1, []⟩⟩) :=
  ((integrate_partial_size_guard [] [] ⟨⟨none, none, [], []⟩, ⟨1, []⟩⟩
      [⟨fun _ => [7], []⟩] (by decide) (by decide)).1 rfl).2

end TesseraSqlite
